import Mathlib

/-!
Verification of the iCloud Private Relay range classifier from the
wikimedia-research/2021-apple-relay-analysis notebooks
(T292106-relay-non-edits.ipynb and T292106-relay-pageviews.ipynb).

The classifier consists of:
  * a two-level index `dict_nets = {'4': defaultdict(set), '6': defaultdict(set)}`
    mapping address family -> netmask -> set of masked network addresses;
  * a loader loop `for net_raw in relay_ranges.range:
        net = ipaddress.ip_network(net_raw)
        dict_nets[str(net.version)][net.netmask].add(int(net.network_address))`;
  * the predicate `is_ip_private_relay(ip_raw)` which parses the input with
    `ipaddress.ip_address`, returns False on a ValueError, and otherwise scans
    the family's netmask -> address-set map for `(bin_ip & bin_netmask) in range_set`.

The notebooks delegate parsing to Python's standard `ipaddress` module, so the
embedding below reproduces the relevant parts of CPython's `ipaddress`:
IPv4 dotted-quad parsing (`_parse_octet` / `_ip_int_from_string`), IPv6 parsing
with `::` compression and an optional embedded IPv4 suffix
(`_parse_hextet` / `_ip_int_from_string`), `ip_address` (try v4 then v6),
and strict `ip_network` (prefix-length notation, host bits rejected).
Machine integers are modelled as `Nat` (Python ints are arbitrary precision);
strings are handled as their character lists so that every definition is a
structural recursion the kernel can evaluate on concrete inputs.
-/

/-- Python `str.split(sep)` for a one-character separator, on character
lists: always returns at least one (possibly empty) piece. -/
def splitOnChar (sep : Char) : List Char → List (List Char)
  | [] => [[]]
  | c :: cs =>
    match splitOnChar sep cs with
    | [] => [[]]
    | t :: ts => if c = sep then [] :: t :: ts else (c :: t) :: ts

/-- Decimal value of an all-digit character list (caller checked the digits). -/
def decimalValue (cs : List Char) : Nat :=
  cs.foldl (fun acc c => acc * 10 + (c.toNat - 48)) 0

/-- CPython `ipaddress._parse_octet`: a decimal octet of an IPv4 address.
Rejects empty strings, non-(ASCII-)digits, more than 3 characters, values
above 255 and superfluous leading zeros. -/
def parse_octet (cs : List Char) : Option Nat :=
  if cs.length = 0 then none
  else if ¬ (cs.all Char.isDigit) then none
  else if cs.length > 3 then none
  else
    let v := decimalValue cs
    if v > 255 then none
    else if cs.length > 1 ∧ cs.headD 'x' = '0' then none
    else some v

/-- CPython `IPv4Address._ip_int_from_string`: split on a dot, demand exactly
four octets, combine big-endian. -/
def ipv4_int_of_chars (cs : List Char) : Option Nat :=
  match splitOnChar '.' cs with
  | [a, b, c, d] =>
    match parse_octet a, parse_octet b, parse_octet c, parse_octet d with
    | some x, some y, some z, some w =>
      some ((((x <<< 8) ||| y) <<< 8 ||| z) <<< 8 ||| w)
    | _, _, _, _ => none
  | _ => none

/-- Hexadecimal digit test, as in CPython's `_HEX_DIGITS` frozenset. -/
def isHexDigit (c : Char) : Bool :=
  c.isDigit || ('a' ≤ c && c ≤ 'f') || ('A' ≤ c && c ≤ 'F')

/-- Value of one hexadecimal digit. -/
def hexDigitValue (c : Char) : Nat :=
  if c.isDigit then c.toNat - 48
  else if 'a' ≤ c then c.toNat - 87
  else c.toNat - 55

/-- CPython `IPv6Address._parse_hextet`: only hex digits, at most 4 of them,
at least one (int of an empty string raises). -/
def parse_hextet (cs : List Char) : Option Nat :=
  if ¬ (cs.all isHexDigit) then none
  else if cs.length > 4 then none
  else if cs.length = 0 then none
  else some (cs.foldl (fun acc c => acc * 16 + hexDigitValue c) 0)

/-- Lowercase hexadecimal rendering of a number, as CPython's format string
percent-x produces for the two hextets of an embedded IPv4 suffix. -/
def toHexChars (n : Nat) : List Char := Nat.toDigits 16 n

/-- If the last colon-separated part contains a dot, CPython parses it as an
IPv4 address and replaces it by its two hextets, rendered in hex. -/
def expandV4Suffix (parts : List (List Char)) : Option (List (List Char)) :=
  if (parts.getLastD []).contains '.' then
    match ipv4_int_of_chars (parts.getLastD []) with
    | none => none
    | some v =>
      some (parts.dropLast ++ [toHexChars ((v >>> 16) &&& 0xFFFF), toHexChars (v &&& 0xFFFF)])
  else some parts

/-- Left fold of already-split hextets into the accumulator, 16 bits each,
mirroring the `ip_int <<= 16; ip_int |= _parse_hextet(...)` loop. -/
def foldHextets (acc : Nat) : List (List Char) → Option Nat
  | [] => some acc
  | h :: t =>
    match parse_hextet h with
    | none => none
    | some v => foldHextets ((acc <<< 16) ||| v) t

/-- CPython `IPv6Address._ip_int_from_string`: split on colons, expand an
embedded IPv4 suffix, locate at most one interior empty part (the double
colon), check the leading/trailing colon rules, and fold the hextets with the
skipped zero-groups in between. -/
def ipv6_int_of_chars (cs : List Char) : Option Nat :=
  let parts0 := splitOnChar ':' cs
  if parts0.length < 3 then none
  else
    match expandV4Suffix parts0 with
    | none => none
    | some parts =>
      let n := parts.length
      if n > 9 then none
      else
        match (List.range n).filter
            (fun i => decide (0 < i) && decide (i < n - 1) &&
              decide (parts.getD i ['x'] = [])) with
        | [] =>
          if n = 8 ∧ parts.getD 0 [] ≠ [] ∧ parts.getD (n - 1) [] ≠ [] then
            foldHextets 0 parts
          else none
        | [i] =>
          let hi := if parts.getD 0 [] = [] then i - 1 else i
          let lo := if parts.getD (n - 1) [] = [] then n - i - 2 else n - i - 1
          if parts.getD 0 [] = [] ∧ hi ≠ 0 then none
          else if parts.getD (n - 1) [] = [] ∧ lo ≠ 0 then none
          else if 8 - (hi + lo) < 1 ∨ hi + lo > 8 then none
          else
            match foldHextets 0 (parts.take hi) with
            | none => none
            | some vhi =>
              foldHextets (vhi <<< (16 * (8 - (hi + lo)))) (parts.drop (n - lo))
        | _ => none

/-- CPython `ipaddress.ip_address` applied to a string: try IPv4, then IPv6;
returns the address family (4 or 6) and the integer value of the address. -/
def ip_address (s : String) : Option (Nat × Nat) :=
  match ipv4_int_of_chars s.data with
  | some v => some (4, v)
  | none =>
    match ipv6_int_of_chars s.data with
    | some v => some (6, v)
    | none => none

/-- A parsed network as the loader loop consumes it: `net.version`,
`int(net.network_address)` and `int(net.netmask)`. -/
structure Net where
  version : Nat
  networkAddress : Nat
  netmask : Nat
deriving DecidableEq, Repr

/-- CPython `_ip_int_from_prefix`: the netmask with the top `p` of `width`
bits set, `ALL_ONES ^ (ALL_ONES >> prefixlen)`. -/
def make_netmask (width p : Nat) : Nat :=
  ((2 ^ width) - 1) ^^^ (((2 ^ width) - 1) >>> p)

/-- CPython `_prefix_from_prefix_string`: all decimal digits, value at most
the family's bit width; a missing prefix part defaults to the full width. -/
def prefixlenOfChars (ms : Option (List Char)) (maxLen : Nat) : Option Nat :=
  match ms with
  | none => some maxLen
  | some m =>
    if m.length = 0 then none
    else if ¬ (m.all Char.isDigit) then none
    else
      let v := decimalValue m
      if v ≤ maxLen then some v else none

/-- CPython `IPv4Network` on an already-split address/prefix pair, with the
default `strict=True`: the address must equal its own masked value, otherwise
"has host bits set" is raised. -/
def net4 (addr : List Char) (maskStr : Option (List Char)) : Option Net :=
  match ipv4_int_of_chars addr with
  | none => none
  | some a =>
    match prefixlenOfChars maskStr 32 with
    | none => none
    | some p =>
      let mask := make_netmask 32 p
      if a &&& mask = a then some ⟨4, a, mask⟩ else none

/-- CPython `IPv6Network` on an already-split address/prefix pair, strict. -/
def net6 (addr : List Char) (maskStr : Option (List Char)) : Option Net :=
  match ipv6_int_of_chars addr with
  | none => none
  | some a =>
    match prefixlenOfChars maskStr 128 with
    | none => none
    | some p =>
      let mask := make_netmask 128 p
      if a &&& mask = a then some ⟨6, a, mask⟩ else none

/-- CPython `ipaddress.ip_network` on a string: split off an optional prefix
length (at most one slash), try `IPv4Network`, then `IPv6Network`. -/
def ip_network (s : String) : Option Net :=
  match splitOnChar '/' s.data with
  | [a] =>
    (match net4 a none with
     | some nw => some nw
     | none => net6 a none)
  | [a, m] =>
    (match net4 a (some m) with
     | some nw => some nw
     | none => net6 a (some m))
  | _ => none

/-- One family's layer of `dict_nets`: a `defaultdict(set)` from netmask to
the set of masked network addresses, as an association list whose value lists
hold distinct elements (Python set semantics). -/
abbrev FamilyDict := List (Nat × List Nat)

/-- Python `set.add`: insert only if absent. -/
def addToSet (s : List Nat) (a : Nat) : List Nat :=
  if a ∈ s then s else a :: s

/-- `dict_nets[v][netmask].add(addr)` on one family's layer: a defaultdict,
so a missing netmask key springs into existence with a fresh set. -/
def dictAdd : FamilyDict → Nat → Nat → FamilyDict
  | [], mask, a => [(mask, [a])]
  | (m, s) :: rest, mask, a =>
    if m = mask then (m, addToSet s a) :: rest
    else (m, s) :: dictAdd rest mask a

/-- The scan `for netmask, range_set in dict_nets[...].items(): if
(bin_ip & bin_netmask) in range_set: return True` over one family's layer. -/
def dictMatch (d : FamilyDict) (ip : Nat) : Bool :=
  d.any (fun p => decide ((ip &&& p.1) ∈ p.2))

/-- The whole `dict_nets` structure: one layer per address family,
pre-initialised for the keys 4 and 6. -/
structure Index where
  v4 : FamilyDict
  v6 : FamilyDict
deriving DecidableEq, Repr

/-- `dict_nets` as initialised: both family layers empty. -/
def emptyIndex : Index := ⟨[], []⟩

/-- Dispatch `dict_nets[str(ip.version)]` and scan it; the version produced
by `ip_address` is always 4 or 6, any other key would be a KeyError. -/
def famMatch (idx : Index) (v ip : Nat) : Bool :=
  if v = 4 then dictMatch idx.v4 ip
  else if v = 6 then dictMatch idx.v6 ip
  else false

/-- The classifier `is_ip_private_relay` of both notebooks: parse the raw
string; a ValueError is swallowed and yields False; otherwise scan the
family's netmask map and report whether any masked address matches. -/
def is_ip_private_relay (idx : Index) (ip_raw : String) : Bool :=
  match ip_address ip_raw with
  | none => false
  | some (v, bin_ip) => famMatch idx v bin_ip

/-- One iteration of the loader loop body:
`dict_nets[str(net.version)][net.netmask].add(int(net.network_address))`. -/
def addNet (idx : Index) (nw : Net) : Index :=
  if nw.version = 4 then { idx with v4 := dictAdd idx.v4 nw.netmask nw.networkAddress }
  else { idx with v6 := dictAdd idx.v6 nw.netmask nw.networkAddress }

/-- The loader loop `for net_raw in relay_ranges.range: ...` starting from a
given index state; `ipaddress.ip_network` raising a ValueError aborts the
loop with that entry as the error. -/
def loadFrom : Index → List String → Except String Index
  | idx, [] => Except.ok idx
  | idx, r :: rs =>
    match ip_network r with
    | none => Except.error r
    | some nw => loadFrom (addNet idx nw) rs

/-- Building `dict_nets` from scratch from a list of CIDR strings. -/
def load (rs : List String) : Except String Index := loadFrom emptyIndex rs

/-- The state-passing embedding of one call to the classifier: the Python
function only reads the global `dict_nets`, so a call returns its boolean
and the (unchanged) index state. -/
def classifyCall (idx : Index) (s : String) : Bool × Index :=
  (is_ip_private_relay idx s, idx)

/-- The index the loader builds from the single range 17.0.0.0/8. -/
def w1Index : Index := ⟨[(4278190080, [285212672])], []⟩

/-- Index invariant for one family layer: every stored address is a fixed
point of masking with its netmask key. -/
def dictInv (d : FamilyDict) : Prop :=
  ∀ p ∈ d, ∀ a ∈ p.2, a &&& p.1 = a

/-- The address `a` is stored in layer `d` under the netmask key `mask`. -/
def dictHas (d : FamilyDict) (mask a : Nat) : Prop :=
  ∃ p ∈ d, p.1 = mask ∧ a ∈ p.2

/-- The parsed network's address is stored in the index under the network's
family and netmask. -/
def idxHas (idx : Index) (nw : Net) : Prop :=
  dictHas (if nw.version = 4 then idx.v4 else idx.v6) nw.netmask nw.networkAddress

theorem mem_addToSet (s : List Nat) (a x : Nat) : x ∈ addToSet s a ↔ x ∈ s ∨ x = a := by
  by_cases ha : a ∈ s
  · simp only [addToSet, if_pos ha]
    exact ⟨Or.inl, fun h => h.elim id (fun hx => hx ▸ ha)⟩
  · simp only [addToSet, if_neg ha, List.mem_cons]
    tauto

theorem dictMatch_dictAdd (d : FamilyDict) (mask a ip : Nat) :
    dictMatch (dictAdd d mask a) ip = true ↔
      (dictMatch d ip = true ∨ ip &&& mask = a) := by
  induction d with
  | nil => simp [dictAdd, dictMatch]
  | cons q rest ih =>
    obtain ⟨m, s⟩ := q
    by_cases hm : m = mask
    · subst hm
      have hred : dictAdd ((m, s) :: rest) m a = (m, addToSet s a) :: rest := by
        simp [dictAdd]
      rw [hred]
      simp only [dictMatch, List.any_cons, Bool.or_eq_true, decide_eq_true_eq,
        mem_addToSet] at *
      tauto
    · have hred : dictAdd ((m, s) :: rest) mask a = (m, s) :: dictAdd rest mask a := by
        simp [dictAdd, hm]
      rw [hred]
      simp only [dictMatch, List.any_cons, Bool.or_eq_true, decide_eq_true_eq] at *
      tauto

theorem loadFrom_nil (idx : Index) : loadFrom idx [] = Except.ok idx := rfl

theorem loadFrom_cons_none {r : String} (h : ip_network r = none)
    (idx : Index) (rs : List String) :
    loadFrom idx (r :: rs) = Except.error r := by
  simp [loadFrom, h]

theorem loadFrom_cons_some {r : String} {nw : Net} (h : ip_network r = some nw)
    (idx : Index) (rs : List String) :
    loadFrom idx (r :: rs) = loadFrom (addNet idx nw) rs := by
  simp [loadFrom, h]

theorem net4_inv {a : List Char} {ms : Option (List Char)} {nw : Net}
    (h : net4 a ms = some nw) :
    nw.version = 4 ∧ nw.networkAddress &&& nw.netmask = nw.networkAddress := by
  unfold net4 at h
  cases hp : ipv4_int_of_chars a with
  | none => simp [hp] at h
  | some addr =>
    cases hq : prefixlenOfChars ms 32 with
    | none => simp [hp, hq] at h
    | some p =>
      simp only [hp, hq] at h
      by_cases hc : addr &&& make_netmask 32 p = addr
      · simp only [if_pos hc, Option.some.injEq] at h
        subst h
        exact ⟨rfl, hc⟩
      · simp [if_neg hc] at h

theorem net6_inv {a : List Char} {ms : Option (List Char)} {nw : Net}
    (h : net6 a ms = some nw) :
    nw.version = 6 ∧ nw.networkAddress &&& nw.netmask = nw.networkAddress := by
  unfold net6 at h
  cases hp : ipv6_int_of_chars a with
  | none => simp [hp] at h
  | some addr =>
    cases hq : prefixlenOfChars ms 128 with
    | none => simp [hp, hq] at h
    | some p =>
      simp only [hp, hq] at h
      by_cases hc : addr &&& make_netmask 128 p = addr
      · simp only [if_pos hc, Option.some.injEq] at h
        subst h
        exact ⟨rfl, hc⟩
      · simp [if_neg hc] at h

theorem ip_network_inv {r : String} {nw : Net} (h : ip_network r = some nw) :
    (nw.version = 4 ∨ nw.version = 6) ∧
      nw.networkAddress &&& nw.netmask = nw.networkAddress := by
  unfold ip_network at h
  split at h
  · cases h4 : net4 _ (none : Option (List Char)) with
    | some nw' =>
      rw [h4, Option.some.injEq] at h
      subst h
      exact ⟨Or.inl (net4_inv h4).1, (net4_inv h4).2⟩
    | none =>
      rw [h4] at h
      exact ⟨Or.inr (net6_inv h).1, (net6_inv h).2⟩
  · cases h4 : net4 _ (some _) with
    | some nw' =>
      rw [h4, Option.some.injEq] at h
      subst h
      exact ⟨Or.inl (net4_inv h4).1, (net4_inv h4).2⟩
    | none =>
      rw [h4] at h
      exact ⟨Or.inr (net6_inv h).1, (net6_inv h).2⟩
  · simp at h

theorem ip_address_version {s : String} {v n : Nat}
    (h : ip_address s = some (v, n)) : v = 4 ∨ v = 6 := by
  unfold ip_address at h
  cases h4 : ipv4_int_of_chars s.data with
  | some x =>
    rw [h4] at h
    simp only [Option.some.injEq, Prod.mk.injEq] at h
    exact Or.inl h.1.symm
  | none =>
    rw [h4] at h
    cases h6 : ipv6_int_of_chars s.data with
    | some x =>
      rw [h6] at h
      simp only [Option.some.injEq, Prod.mk.injEq] at h
      exact Or.inr h.1.symm
    | none => rw [h6] at h; simp at h

theorem famMatch_addNet (idx : Index) (nw : Net) (v ip : Nat)
    (hv : v = 4 ∨ v = 6) (hn : nw.version = 4 ∨ nw.version = 6) :
    (famMatch (addNet idx nw) v ip = true ↔
      famMatch idx v ip = true ∨
        (nw.version = v ∧ ip &&& nw.netmask = nw.networkAddress)) := by
  rcases hv with rfl | rfl <;> rcases hn with hn | hn <;>
    simp [famMatch, addNet, hn, dictMatch_dictAdd]

theorem loadFrom_famMatch :
    ∀ (rs : List String) (idx idx' : Index), loadFrom idx rs = Except.ok idx' →
      ∀ (v ip : Nat), v = 4 ∨ v = 6 →
      (famMatch idx' v ip = true ↔
        famMatch idx v ip = true ∨
          ∃ r ∈ rs, ∃ nw, ip_network r = some nw ∧ nw.version = v ∧
            ip &&& nw.netmask = nw.networkAddress) := by
  intro rs
  induction rs with
  | nil =>
    intro idx idx' h v ip hv
    rw [loadFrom_nil, Except.ok.injEq] at h
    subst h
    simp
  | cons r rs ih =>
    intro idx idx' h v ip hv
    cases hnw : ip_network r with
    | none => rw [loadFrom_cons_none hnw] at h; cases h
    | some nw =>
      rw [loadFrom_cons_some hnw] at h
      rw [ih (addNet idx nw) idx' h v ip hv,
        famMatch_addNet idx nw v ip hv ((ip_network_inv hnw).1)]
      constructor
      · rintro ((hm | ⟨hver, hmask⟩) | ⟨r', hr', nw', h1, h2, h3⟩)
        · exact Or.inl hm
        · exact Or.inr ⟨r, List.mem_cons_self r rs, nw, hnw, hver, hmask⟩
        · exact Or.inr ⟨r', List.mem_cons_of_mem r hr', nw', h1, h2, h3⟩
      · rintro (hm | ⟨r', hr', nw', h1, h2, h3⟩)
        · exact Or.inl (Or.inl hm)
        · rcases List.mem_cons.mp hr' with rfl | hr'
          · rw [hnw, Option.some.injEq] at h1
            subst h1
            exact Or.inl (Or.inr ⟨h2, h3⟩)
          · exact Or.inr ⟨r', hr', nw', h1, h2, h3⟩

theorem loadFrom_ok_mem :
    ∀ (rs : List String) (idx idx' : Index), loadFrom idx rs = Except.ok idx' →
      ∀ r ∈ rs, ∃ nw, ip_network r = some nw := by
  intro rs
  induction rs with
  | nil => intro idx idx' _ r hr; exact absurd hr (List.not_mem_nil r)
  | cons r0 rs ih =>
    intro idx idx' h r hr
    cases hnw : ip_network r0 with
    | none => rw [loadFrom_cons_none hnw] at h; cases h
    | some nw =>
      rw [loadFrom_cons_some hnw] at h
      rcases List.mem_cons.mp hr with rfl | hr
      · exact ⟨nw, hnw⟩
      · exact ih _ _ h r hr

theorem loadFrom_error :
    ∀ (rs : List String) (r : String), r ∈ rs → ip_network r = none →
      ∀ idx, ∃ e, loadFrom idx rs = Except.error e := by
  intro rs
  induction rs with
  | nil => intro r hr; exact absurd hr (List.not_mem_nil r)
  | cons r0 rs ih =>
    intro r hr hbad idx
    cases hnw : ip_network r0 with
    | none => exact ⟨r0, loadFrom_cons_none hnw idx rs⟩
    | some nw =>
      rcases List.mem_cons.mp hr with rfl | hr
      · rw [hnw] at hbad; cases hbad
      · obtain ⟨e, he⟩ := ih r hr hbad (addNet idx nw)
        exact ⟨e, by rw [loadFrom_cons_some hnw]; exact he⟩

theorem loadFrom_ok_exists :
    ∀ (rs : List String), (∀ r ∈ rs, ∃ nw, ip_network r = some nw) →
      ∀ idx, ∃ idx', loadFrom idx rs = Except.ok idx' := by
  intro rs
  induction rs with
  | nil => intro _ idx; exact ⟨idx, rfl⟩
  | cons r0 rs ih =>
    intro hall idx
    obtain ⟨nw, hnw⟩ := hall r0 (List.mem_cons_self r0 rs)
    obtain ⟨idx', h'⟩ := ih (fun r hr => hall r (List.mem_cons_of_mem r0 hr)) (addNet idx nw)
    exact ⟨idx', by rw [loadFrom_cons_some hnw]; exact h'⟩

theorem dictInv_dictAdd :
    ∀ (d : FamilyDict), dictInv d → ∀ (mask a : Nat), a &&& mask = a →
      dictInv (dictAdd d mask a) := by
  intro d
  induction d with
  | nil =>
    intro _ mask a ha p hp x hx
    simp only [dictAdd, List.mem_singleton] at hp
    subst hp
    simp only [List.mem_singleton] at hx
    subst hx
    exact ha
  | cons q rest ih =>
    intro hd mask a ha p hp x hx
    obtain ⟨m, s⟩ := q
    by_cases hm : m = mask
    · subst hm
      have hred : dictAdd ((m, s) :: rest) m a = (m, addToSet s a) :: rest := by
        simp [dictAdd]
      rw [hred] at hp
      rcases List.mem_cons.mp hp with rfl | hp
      · rcases (mem_addToSet s a x).mp hx with hxs | rfl
        · exact hd (m, s) (List.mem_cons_self _ _) x hxs
        · exact ha
      · exact hd p (List.mem_cons_of_mem _ hp) x hx
    · have hred : dictAdd ((m, s) :: rest) mask a = (m, s) :: dictAdd rest mask a := by
        simp [dictAdd, hm]
      rw [hred] at hp
      rcases List.mem_cons.mp hp with rfl | hp
      · exact hd (m, s) (List.mem_cons_self _ _) x hx
      · exact ih (fun q hq => hd q (List.mem_cons_of_mem _ hq)) mask a ha p hp x hx

theorem dictHas_dictAdd_self :
    ∀ (d : FamilyDict) (mask a : Nat), dictHas (dictAdd d mask a) mask a := by
  intro d
  induction d with
  | nil =>
    intro mask a
    exact ⟨(mask, [a]), List.mem_cons_self _ _, rfl, List.mem_singleton.mpr rfl⟩
  | cons q rest ih =>
    intro mask a
    obtain ⟨m, s⟩ := q
    by_cases hm : m = mask
    · subst hm
      have hred : dictAdd ((m, s) :: rest) m a = (m, addToSet s a) :: rest := by
        simp [dictAdd]
      rw [hred]
      exact ⟨(m, addToSet s a), List.mem_cons_self _ _, rfl,
        (mem_addToSet s a a).mpr (Or.inr rfl)⟩
    · have hred : dictAdd ((m, s) :: rest) mask a = (m, s) :: dictAdd rest mask a := by
        simp [dictAdd, hm]
      rw [hred]
      obtain ⟨p, hp, h1, h2⟩ := ih mask a
      exact ⟨p, List.mem_cons_of_mem _ hp, h1, h2⟩

theorem dictHas_dictAdd_mono :
    ∀ (d : FamilyDict) (mask a m x : Nat), dictHas d m x →
      dictHas (dictAdd d mask a) m x := by
  intro d
  induction d with
  | nil =>
    intro mask a m x h
    obtain ⟨p, hp, _, _⟩ := h
    exact absurd hp (List.not_mem_nil p)
  | cons q rest ih =>
    intro mask a m x h
    obtain ⟨m0, s⟩ := q
    obtain ⟨p, hp, h1, h2⟩ := h
    by_cases hm : m0 = mask
    · subst hm
      have hred : dictAdd ((m0, s) :: rest) m0 a = (m0, addToSet s a) :: rest := by
        simp [dictAdd]
      rw [hred]
      rcases List.mem_cons.mp hp with rfl | hp
      · exact ⟨(m0, addToSet s a), List.mem_cons_self _ _, h1,
          (mem_addToSet s a x).mpr (Or.inl h2)⟩
      · exact ⟨p, List.mem_cons_of_mem _ hp, h1, h2⟩
    · have hred : dictAdd ((m0, s) :: rest) mask a = (m0, s) :: dictAdd rest mask a := by
        simp [dictAdd, hm]
      rw [hred]
      rcases List.mem_cons.mp hp with rfl | hp
      · exact ⟨(m0, s), List.mem_cons_self _ _, h1, h2⟩
      · obtain ⟨p', hp', h1', h2'⟩ := ih mask a m x ⟨p, hp, h1, h2⟩
        exact ⟨p', List.mem_cons_of_mem _ hp', h1', h2'⟩

theorem idxHas_addNet_self (idx : Index) (nw : Net) : idxHas (addNet idx nw) nw := by
  by_cases hv : nw.version = 4
  · simpa [idxHas, addNet, hv] using
      dictHas_dictAdd_self idx.v4 nw.netmask nw.networkAddress
  · simpa [idxHas, addNet, hv] using
      dictHas_dictAdd_self idx.v6 nw.netmask nw.networkAddress

theorem idxHas_addNet_mono {idx : Index} {nw nw' : Net} (h : idxHas idx nw') :
    idxHas (addNet idx nw) nw' := by
  unfold idxHas at h ⊢
  by_cases hv : nw.version = 4
  · by_cases hv' : nw'.version = 4
    · rw [if_pos hv'] at h ⊢
      simp only [addNet, if_pos hv]
      exact dictHas_dictAdd_mono _ _ _ _ _ h
    · rw [if_neg hv'] at h ⊢
      simp only [addNet, if_pos hv]
      exact h
  · by_cases hv' : nw'.version = 4
    · rw [if_pos hv'] at h ⊢
      simp only [addNet, if_neg hv]
      exact h
    · rw [if_neg hv'] at h ⊢
      simp only [addNet, if_neg hv]
      exact dictHas_dictAdd_mono _ _ _ _ _ h

theorem loadFrom_inv :
    ∀ (rs : List String) (idx idx' : Index), loadFrom idx rs = Except.ok idx' →
      dictInv idx.v4 → dictInv idx.v6 → dictInv idx'.v4 ∧ dictInv idx'.v6 := by
  intro rs
  induction rs with
  | nil =>
    intro idx idx' h h4 h6
    rw [loadFrom_nil, Except.ok.injEq] at h
    subst h
    exact ⟨h4, h6⟩
  | cons r0 rs ih =>
    intro idx idx' h h4 h6
    cases hnw : ip_network r0 with
    | none => rw [loadFrom_cons_none hnw] at h; cases h
    | some nw =>
      rw [loadFrom_cons_some hnw] at h
      have hmask := (ip_network_inv hnw).2
      by_cases hv : nw.version = 4
      · refine ih (addNet idx nw) idx' h ?_ ?_
        · simp only [addNet, if_pos hv]
          exact dictInv_dictAdd idx.v4 h4 nw.netmask nw.networkAddress hmask
        · simp only [addNet, if_pos hv]
          exact h6
      · refine ih (addNet idx nw) idx' h ?_ ?_
        · simp only [addNet, if_neg hv]
          exact h4
        · simp only [addNet, if_neg hv]
          exact dictInv_dictAdd idx.v6 h6 nw.netmask nw.networkAddress hmask

theorem loadFrom_idxHas_mono :
    ∀ (rs : List String) (idx idx' : Index), loadFrom idx rs = Except.ok idx' →
      ∀ nw, idxHas idx nw → idxHas idx' nw := by
  intro rs
  induction rs with
  | nil =>
    intro idx idx' h nw hh
    rw [loadFrom_nil, Except.ok.injEq] at h
    subst h
    exact hh
  | cons r0 rs ih =>
    intro idx idx' h nw hh
    cases hnw : ip_network r0 with
    | none => rw [loadFrom_cons_none hnw] at h; cases h
    | some nw0 =>
      rw [loadFrom_cons_some hnw] at h
      exact ih (addNet idx nw0) idx' h nw (idxHas_addNet_mono hh)

theorem loadFrom_has :
    ∀ (rs : List String) (idx idx' : Index), loadFrom idx rs = Except.ok idx' →
      ∀ r ∈ rs, ∀ nw, ip_network r = some nw → idxHas idx' nw := by
  intro rs
  induction rs with
  | nil => intro idx idx' _ r hr; exact absurd hr (List.not_mem_nil r)
  | cons r0 rs ih =>
    intro idx idx' h r hr nw hnw
    cases hnw0 : ip_network r0 with
    | none => rw [loadFrom_cons_none hnw0] at h; cases h
    | some nw0 =>
      rw [loadFrom_cons_some hnw0] at h
      rcases List.mem_cons.mp hr with rfl | hr
      · rw [hnw0, Option.some.injEq] at hnw
        subst hnw
        exact loadFrom_idxHas_mono rs (addNet idx nw0) idx' h nw0
          (idxHas_addNet_self idx nw0)
      · exact ih (addNet idx nw0) idx' h r hr nw hnw

theorem famMatch_emptyIndex (v ip : Nat) : famMatch emptyIndex v ip = false := by
  unfold famMatch emptyIndex dictMatch
  split
  · rfl
  · split <;> rfl

/-- C1: for an index built from a list of valid CIDR ranges and a query that
parses as an IP address, `is_ip_private_relay` returns true iff some loaded
range of the query's address family satisfies
`(int(ip) & netmask) == network_address`; in particular a parseable IP
outside every loaded range yields false. -/
theorem relay_membership_iff (rs : List String) (idx : Index) (s : String)
    (v bin_ip : Nat) (hload : load rs = Except.ok idx)
    (hip : ip_address s = some (v, bin_ip)) :
    is_ip_private_relay idx s = true ↔
      ∃ r ∈ rs, ∃ nw, ip_network r = some nw ∧ nw.version = v ∧
        bin_ip &&& nw.netmask = nw.networkAddress := by
  have hv := ip_address_version hip
  have h1 : is_ip_private_relay idx s = famMatch idx v bin_ip := by
    simp [is_ip_private_relay, hip]
  unfold load at hload
  rw [h1, loadFrom_famMatch rs emptyIndex idx hload v bin_ip hv,
    famMatch_emptyIndex]
  simp

theorem relay_membership_iff_witness :
    is_ip_private_relay w1Index "17.1.2.3" = true :=
  (relay_membership_iff ["17.0.0.0/8"] w1Index "17.1.2.3" 4 285278723
      (by rfl) (by rfl)).mpr
    ⟨"17.0.0.0/8", List.mem_singleton.mpr rfl,
      ⟨4, 285212672, 4278190080⟩, by rfl, rfl, by rfl⟩

/-- C2: the classifier is total over all strings: every string that does not
parse as an IP address yields false (parse failure is swallowed), and the
three example strings (empty, "not-an-ip", "999.999.999.999") indeed fail
to parse. -/
theorem relay_nonip_false :
    (∀ (idx : Index) (s : String), ip_address s = none →
        is_ip_private_relay idx s = false) ∧
    ip_address "" = none ∧ ip_address "not-an-ip" = none ∧
    ip_address "999.999.999.999" = none := by
  refine ⟨fun idx s h => ?_, by rfl, by rfl, by rfl⟩
  simp [is_ip_private_relay, h]

theorem relay_nonip_false_witness :
    is_ip_private_relay emptyIndex "not-an-ip" = false :=
  relay_nonip_false.1 emptyIndex "not-an-ip" (by rfl)

/-- C3: IPv4 and IPv6 never cross-match: the result on an input that parses
as IPv4 depends only on the v4 layer of the index, and symmetrically for
IPv6; and the IPv4-mapped literal "::ffff:17.1.2.3" is classified as an
IPv6 address, so it does not match the IPv4-only range 17.0.0.0/8 even
though plain "17.1.2.3" does. -/
theorem relay_family_disjoint :
    (∀ (d4 d6a d6b : FamilyDict) (s : String) (n : Nat),
        ip_address s = some (4, n) →
        is_ip_private_relay ⟨d4, d6a⟩ s = is_ip_private_relay ⟨d4, d6b⟩ s) ∧
    (∀ (d4a d4b d6 : FamilyDict) (s : String) (n : Nat),
        ip_address s = some (6, n) →
        is_ip_private_relay ⟨d4a, d6⟩ s = is_ip_private_relay ⟨d4b, d6⟩ s) ∧
    (ip_address "::ffff:17.1.2.3").map Prod.fst = some 6 ∧
    load ["17.0.0.0/8"] = Except.ok w1Index ∧
    is_ip_private_relay w1Index "::ffff:17.1.2.3" = false ∧
    is_ip_private_relay w1Index "17.1.2.3" = true := by
  refine ⟨fun d4 d6a d6b s n h => ?_, fun d4a d4b d6 s n h => ?_,
    by rfl, by rfl, by rfl, by rfl⟩
  · simp [is_ip_private_relay, h, famMatch]
  · simp [is_ip_private_relay, h, famMatch]

theorem relay_family_disjoint_witness :
    is_ip_private_relay ⟨[], [(0, [0])]⟩ "17.1.2.3" =
      is_ip_private_relay ⟨[], []⟩ "17.1.2.3" :=
  relay_family_disjoint.1 [] [(0, [0])] [] "17.1.2.3" 285278723 (by rfl)

/-- C4: loading fails with an error whenever some entry is not a
syntactically valid network (so the failing entry contributes nothing: no
index is produced at all), and conversely a successfully built index only
ever saw entries that parse as networks. -/
theorem relay_load_malformed :
    (∀ (rs : List String) (r : String), r ∈ rs → ip_network r = none →
        ∃ e, load rs = Except.error e) ∧
    (∀ (rs : List String) (idx : Index), load rs = Except.ok idx →
        ∀ r ∈ rs, ∃ nw, ip_network r = some nw) := by
  constructor
  · intro rs r hr hbad
    unfold load
    exact loadFrom_error rs r hr hbad emptyIndex
  · intro rs idx h
    unfold load at h
    exact loadFrom_ok_mem rs emptyIndex idx h

theorem relay_load_malformed_witness :
    ∃ e, load ["17.0.0.1/8"] = Except.error e :=
  relay_load_malformed.1 ["17.0.0.1/8"] "17.0.0.1/8"
    (List.mem_singleton.mpr rfl) (by rfl)

/-- C5: index invariant after a successful load: every stored address in
either family layer is a fixed point of masking with its netmask key, and
every loaded range's network address appears in the set stored under the
range's family and netmask. -/
theorem relay_index_invariant (rs : List String) (idx : Index)
    (h : load rs = Except.ok idx) :
    dictInv idx.v4 ∧ dictInv idx.v6 ∧
      ∀ r ∈ rs, ∃ nw, ip_network r = some nw ∧
        nw.networkAddress &&& nw.netmask = nw.networkAddress ∧ idxHas idx nw := by
  unfold load at h
  have hempty4 : dictInv (emptyIndex.v4) := fun p hp => absurd hp (List.not_mem_nil p)
  have hempty6 : dictInv (emptyIndex.v6) := fun p hp => absurd hp (List.not_mem_nil p)
  obtain ⟨h4, h6⟩ := loadFrom_inv rs emptyIndex idx h hempty4 hempty6
  refine ⟨h4, h6, fun r hr => ?_⟩
  obtain ⟨nw, hnw⟩ := loadFrom_ok_mem rs emptyIndex idx h r hr
  exact ⟨nw, hnw, (ip_network_inv hnw).2,
    loadFrom_has rs emptyIndex idx h r hr nw hnw⟩

theorem relay_index_invariant_witness :
    ∃ nw, ip_network "17.0.0.0/8" = some nw ∧
      nw.networkAddress &&& nw.netmask = nw.networkAddress ∧ idxHas w1Index nw :=
  (relay_index_invariant ["17.0.0.0/8"] w1Index (by rfl)).2.2 "17.0.0.0/8"
    (List.mem_singleton.mpr rfl)

/-- C6: duplicate CIDR entries are harmless: if a list loads successfully,
its deduplicated version also loads successfully and the two indices
classify every query string identically. -/
theorem relay_load_dedup (rs : List String) (idx : Index)
    (h : load rs = Except.ok idx) :
    ∃ idx', load rs.dedup = Except.ok idx' ∧
      ∀ s, is_ip_private_relay idx s = is_ip_private_relay idx' s := by
  unfold load at h ⊢
  have hall : ∀ r ∈ rs, ∃ nw, ip_network r = some nw :=
    loadFrom_ok_mem rs emptyIndex idx h
  obtain ⟨idx', h'⟩ := loadFrom_ok_exists rs.dedup
    (fun r hr => hall r (List.mem_dedup.mp hr)) emptyIndex
  refine ⟨idx', h', fun s => ?_⟩
  cases hip : ip_address s with
  | none => simp [is_ip_private_relay, hip]
  | some p =>
    obtain ⟨v, bin⟩ := p
    have hv := ip_address_version hip
    simp only [is_ip_private_relay, hip]
    have e1 := loadFrom_famMatch rs emptyIndex idx h v bin hv
    have e2 := loadFrom_famMatch rs.dedup emptyIndex idx' h' v bin hv
    rw [famMatch_emptyIndex] at e1 e2
    simp only [Bool.false_eq_true, false_or] at e1 e2
    have : (famMatch idx v bin = true) ↔ (famMatch idx' v bin = true) := by
      rw [e1, e2]
      constructor
      · rintro ⟨r, hr, rest⟩
        exact ⟨r, List.mem_dedup.mpr hr, rest⟩
      · rintro ⟨r, hr, rest⟩
        exact ⟨r, List.mem_dedup.mp hr, rest⟩
    cases hb : famMatch idx v bin <;> cases hb' : famMatch idx' v bin
    · rfl
    · exact absurd (this.mpr hb') (by simp [hb])
    · exact absurd (this.mp hb) (by simp [hb'])
    · rfl

theorem relay_load_dedup_witness :
    ∃ idx', load (["17.0.0.0/8", "17.0.0.0/8"].dedup) = Except.ok idx' ∧
      ∀ s, is_ip_private_relay w1Index s = is_ip_private_relay idx' s :=
  relay_load_dedup ["17.0.0.0/8", "17.0.0.0/8"] w1Index (by rfl)

/-- C7: classification performs no mutation: a call returns the index state
unchanged, and a second call on the returned state with the same input gives
the same boolean. -/
theorem relay_no_mutation (idx : Index) (s : String) :
    (classifyCall idx s).2 = idx ∧
      (classifyCall (classifyCall idx s).2 s).1 = (classifyCall idx s).1 :=
  ⟨rfl, rfl⟩

/-- C8: concrete scenarios: with 17.0.0.0/8 and 2403:300::/32 loaded, the
six sample queries classify as true, false, true, false, false, false; with
192.168.0.0/16 loaded, the range's upper boundary is included and the next
address is not. -/
theorem relay_concrete_scenarios :
    (load ["17.0.0.0/8", "2403:300::/32"]).map (fun idx =>
      (is_ip_private_relay idx "17.1.2.3", is_ip_private_relay idx "18.1.2.3",
       is_ip_private_relay idx "2403:300::1", is_ip_private_relay idx "2403:301::1",
       is_ip_private_relay idx "", is_ip_private_relay idx "not-an-ip")) =
      Except.ok (true, false, true, false, false, false) ∧
    (load ["192.168.0.0/16"]).map (fun idx =>
      (is_ip_private_relay idx "192.168.255.255",
       is_ip_private_relay idx "192.169.0.0")) =
      Except.ok (true, false) :=
  ⟨rfl, rfl⟩

/-- C9: with an empty range list the loader succeeds with the pre-initialised
empty index, and the classifier returns false on every input string
(well-formed or not) without erroring. -/
theorem relay_empty_index :
    load [] = Except.ok emptyIndex ∧
      ∀ s : String, is_ip_private_relay emptyIndex s = false := by
  refine ⟨rfl, fun s => ?_⟩
  cases hip : ip_address s with
  | none => simp [is_ip_private_relay, hip]
  | some p =>
    obtain ⟨v, bin⟩ := p
    simp only [is_ip_private_relay, hip]
    exact famMatch_emptyIndex v bin

/-- C10: the loader rejects a CIDR entry with host bits set below the prefix
(raising at parse time, never silently masking): every accepted network is
already equal to its masked network address, and "17.0.0.1/8" is rejected,
aborting the load with an error. -/
theorem relay_strict_network_parse :
    (∀ (r : String) (nw : Net), ip_network r = some nw →
        nw.networkAddress &&& nw.netmask = nw.networkAddress) ∧
    ip_network "17.0.0.1/8" = none ∧
    load ["17.0.0.1/8"] = Except.error "17.0.0.1/8" :=
  ⟨fun _ _ h => (ip_network_inv h).2, rfl, rfl⟩

theorem relay_strict_network_parse_witness :
    (285212672 : Nat) &&& 4278190080 = 285212672 :=
  relay_strict_network_parse.1 "17.0.0.0/8" ⟨4, 285212672, 4278190080⟩ (by rfl)
